import Mathlib

/-!
Verification of the Pattern-Statistics & Weighted-Generation Engine of the
`lottery` repository, as a shallow embedding in Lean 4.

Conventions of the embedding:
* Python integers become `ℕ` (all quantities involved are non-negative counts
  or ball values); Python float arithmetic on the values occurring here is
  exact decimal/rational arithmetic, embedded as `ℚ`.
* `np.sqrt(expected)` is irrational in general, so the z-score computation
  `(observed - expected) / np.sqrt(expected)` is embedded with the square root
  as an explicit parameter `s` (the properties proved below hold for every
  value of `s`, in particular for `s = √expected`).
* Python's ambient `random` module is embedded as an explicit oracle
  `g : ℕ → ℕ` of raw random values together with a running index, so each
  sampling primitive is a pure function of the oracle.
* A Python function that can raise becomes a function into `Except PyExc`;
  the loop `while len(white_balls) < 5` of the frequency-weighted strategy
  need not terminate for an adversarial oracle, so it is embedded with
  explicit fuel, returning `Option`.
-/

namespace Lottery

/-! ## FeatureExtractor (`advanced_pattern_analyzer.py`) -/

/-- Embedding of `sorted(numbers)` in the feature helpers
(`advanced_pattern_analyzer.py`); `List.insertionSort` is a stable
comparison sort, as Python's `sorted` is. -/
def sorted_nums (numbers : List ℕ) : List ℕ :=
  numbers.insertionSort (· ≤ ·)

/-- Adjacent pairs `(s[i], s[i+1])` of a list. -/
def adjacent_pairs (l : List ℕ) : List (ℕ × ℕ) :=
  l.zip l.tail

/-- Embedding of `_count_consecutive_pairs` (`advanced_pattern_analyzer.py`
lines 83-90): count the indices `i` with `sorted[i+1] - sorted[i] == 1`. -/
def count_consecutive_pairs (numbers : List ℕ) : ℕ :=
  (adjacent_pairs (sorted_nums numbers)).countP fun p => p.2 == p.1 + 1

/-- The gaps `sorted[i+1] - sorted[i]` of `_calculate_gap_variance`
(`advanced_pattern_analyzer.py` line 95). -/
def gap_list (numbers : List ℕ) : List ℤ :=
  (adjacent_pairs (sorted_nums numbers)).map fun p => (p.2 : ℤ) - (p.1 : ℤ)

/-- Embedding of `np.var`: population variance, mean of squared deviations
from the mean. -/
def np_var (l : List ℤ) : ℚ :=
  let n : ℚ := l.length
  let m : ℚ := (l.map fun x => (x : ℚ)).sum / n
  ((l.map fun x => ((x : ℚ) - m) ^ 2).sum) / n

/-- Embedding of `_calculate_gap_variance` (`advanced_pattern_analyzer.py`
lines 92-96): `np.var(gaps) if len(gaps) > 0 else 0`. -/
def calculate_gap_variance (numbers : List ℕ) : ℚ :=
  let gaps := gap_list numbers
  if 0 < gaps.length then np_var gaps else 0

/-- Embedding of `_calculate_low_high_ratio` (`advanced_pattern_analyzer.py`
lines 98-102): `low_count / high_count if high_count > 0 else 5.0`, where the
code sets `high_count = 5 - low_count` (an `int`, hence embedded in `ℤ`). -/
def calculate_low_high_ratio (numbers : List ℕ) : ℚ :=
  let low_count : ℤ := numbers.countP fun n => n ≤ 34
  let high_count : ℤ := 5 - low_count
  if 0 < high_count then (low_count : ℚ) / (high_count : ℚ) else 5

/-- The fixed prime set of `_count_primes` (`advanced_pattern_analyzer.py`
line 106). -/
def prime_set : List ℕ :=
  [2, 3, 5, 7, 11, 13, 17, 19, 23, 29, 31, 37, 41, 43, 47, 53, 59, 61, 67]

/-- Embedding of `_count_primes` (`advanced_pattern_analyzer.py`
lines 104-107). -/
def count_primes (numbers : List ℕ) : ℕ :=
  numbers.countP fun n => prime_set.contains n

/-- The fixed Fibonacci set of `_count_fibonacci` (`advanced_pattern_analyzer.py`
line 111). -/
def fib_set : List ℕ :=
  [1, 2, 3, 5, 8, 13, 21, 34, 55]

/-- Embedding of `_count_fibonacci` (`advanced_pattern_analyzer.py`
lines 109-112). -/
def count_fibonacci (numbers : List ℕ) : ℕ :=
  numbers.countP fun n => fib_set.contains n

/-! ## HeatIndexCalculator (`heat_index_rankings.py`) -/

/-- The heat categories returned by `get_heat_category`
(`heat_index_rankings.py` lines 109-124). -/
inductive HeatCategory where
  | blazing_hot
  | hot
  | warm
  | neutral
  | cool
  | cold
  | freezing
deriving DecidableEq

/-- Position of a category in the cold-to-hot order, used to express that the
category is monotone in the z-score. -/
def category_rank : HeatCategory → ℕ
  | .freezing => 0
  | .cold => 1
  | .cool => 2
  | .neutral => 3
  | .warm => 4
  | .hot => 5
  | .blazing_hot => 6

/-- Embedding of `get_heat_category` (`heat_index_rankings.py` lines 109-124):
the if/elif cascade on the z-score. -/
def get_heat_category (z : ℚ) : HeatCategory :=
  if 2 ≤ z then .blazing_hot
  else if 1 ≤ z then .hot
  else if 1 / 2 ≤ z then .warm
  else if -(1 / 2) ≤ z then .neutral
  else if -1 ≤ z then .cool
  else if -2 ≤ z then .cold
  else .freezing

/-- Embedding of the heat-index formula of `calculate_heat_index`
(`heat_index_rankings.py` lines 67 and 92):
`max(0, min(100, 50 + (z_score * 16.67)))`. -/
def heat_index (z : ℚ) : ℚ :=
  max 0 (min 100 (50 + z * (1667 / 100)))

/-- Modelled from the spec: `clamp(0,100, ...)` as used in the sentence
`heat_index = clamp(0,100, 50 + z_score × 16.67)`, for comparison with the
code's `max`/`min` expression. -/
def clamp (lo hi x : ℚ) : ℚ :=
  max lo (min hi x)

/-- Embedding of the z-score computation
`(observed_count - expected) / np.sqrt(expected)` (`heat_index_rankings.py`
lines 58 and 84); the square root is the explicit parameter `s`. -/
def z_score (observed expected s : ℚ) : ℚ :=
  (observed - expected) / s

/-- Exceptions of the embedding: `zero_division` is Python's
`ZeroDivisionError`, `value_error` is `ValueError` (raised by
`random.sample` when the sample is larger than the population), and
`empty_dataset_error` is the `EmptyDatasetError` named by the specification
(no code in the repository defines or raises it). -/
inductive PyExc where
  | zero_division
  | value_error
  | empty_dataset_error
deriving DecidableEq

/-- One row of the per-number table built by `calculate_heat_index`
(`heat_index_rankings.py` lines 69-78). -/
structure NumberStat where
  number : ℕ
  frequency : ℕ
  z : ℚ
  percentage : ℚ
  heat : ℚ
  category : HeatCategory
deriving DecidableEq

/-- Embedding of the white-ball half of `calculate_heat_index`
(`heat_index_rankings.py` lines 42-78) on the flattened white-ball list.
`expected = len(white_balls) / 69` is float division (total, embedded in
`ℚ`); the z-score line divides by `np.sqrt(expected)` in numpy floats,
which produces NaN rather than raising when the denominator is zero, while
the percentage line `observed_count / len(self.white_balls)` is Python
integer division and raises `ZeroDivisionError` on an empty dataset. -/
def calculate_heat_index (white_balls : List ℕ) (s : ℚ) :
    Except PyExc (List NumberStat) :=
  let expected : ℚ := (white_balls.length : ℚ) / 69
  (List.range' 1 69).mapM fun num =>
    let observed : ℕ := white_balls.count num
    let z := z_score (observed : ℚ) expected s
    if white_balls.length = 0 then
      Except.error PyExc.zero_division
    else
      Except.ok
        { number := num
          frequency := observed
          z := z
          percentage := ((observed : ℚ) / (white_balls.length : ℚ)) * 100
          heat := heat_index z
          category := get_heat_category z }

/-! ## Claim theorems: features and heat index -/

/-- Every natural number is counted exactly once between the low predicate
(≤ 34) and the high predicate (≥ 35). -/
theorem countP_low_add_countP_high (l : List ℕ) :
    l.countP (fun n => n ≤ 34) + l.countP (fun n => 35 ≤ n) = l.length := by
  induction l with
  | nil => simp
  | cons a t ih =>
    simp only [List.countP_cons, List.length_cons]
    by_cases ha : a ≤ 34
    · have h2 : ¬ 35 ≤ a := by omega
      simp [ha, h2]
      omega
    · have h2 : 35 ≤ a := by omega
      simp [ha, h2]
      omega

/-- C9: for the draw [1,2,3,4,5], the extracted features are
consecutive_pairs = 4, gap_variance = 0, low_high_ratio = 5.0,
prime_count = 3 and fibonacci_count = 4. -/
theorem C9_features_of_one_to_five :
    count_consecutive_pairs [1, 2, 3, 4, 5] = 4 ∧
    calculate_gap_variance [1, 2, 3, 4, 5] = 0 ∧
    calculate_low_high_ratio [1, 2, 3, 4, 5] = 5 ∧
    count_primes [1, 2, 3, 4, 5] = 3 ∧
    count_fibonacci [1, 2, 3, 4, 5] = 4 := by
  have hg : gap_list [1, 2, 3, 4, 5] = [1, 1, 1, 1] := by decide
  refine ⟨by decide, ?_, by decide, by decide, by decide⟩
  rw [calculate_gap_variance, hg]
  norm_num [np_var, List.map_cons, List.map_nil, List.sum_cons, List.sum_nil]

/-- C8: for every draw of 5 white balls in [1,69], `calculate_low_high_ratio`
is total and bounded: it equals (count of values ≤ 34) / (count of values
≥ 35) when the high count is positive, equals exactly 5 when the high count
is zero, and always lies in [0, 5]. -/
theorem C8_low_high_ratio_total_bounded (l : List ℕ) (h5 : l.length = 5)
    (hdom : ∀ x ∈ l, 1 ≤ x ∧ x ≤ 69) :
    (0 < l.countP (fun n => 35 ≤ n) →
      calculate_low_high_ratio l =
        (l.countP (fun n => n ≤ 34) : ℚ) / (l.countP (fun n => 35 ≤ n) : ℚ)) ∧
    (l.countP (fun n => 35 ≤ n) = 0 → calculate_low_high_ratio l = 5) ∧
    0 ≤ calculate_low_high_ratio l ∧ calculate_low_high_ratio l ≤ 5 := by
  have hval : calculate_low_high_ratio l =
      if 0 < 5 - ((l.countP fun n => n ≤ 34) : ℤ) then
        (((l.countP fun n => n ≤ 34) : ℤ) : ℚ) /
          ((5 - ((l.countP fun n => n ≤ 34) : ℤ) : ℤ) : ℚ)
      else 5 := rfl
  have hsplit := countP_low_add_countP_high l
  rw [h5] at hsplit
  revert hval hsplit
  generalize (l.countP fun n => n ≤ 34) = low
  generalize (l.countP fun n => 35 ≤ n) = high
  intro hval hsplit
  refine ⟨?_, ?_, ?_, ?_⟩
  · intro hpos
    have h1 : (0 : ℤ) < 5 - (low : ℤ) := by omega
    have h2 : (5 : ℤ) - (low : ℤ) = (high : ℤ) := by omega
    rw [hval, if_pos h1, h2]
    push_cast
    ring
  · intro hz
    have h1 : ¬ (0 : ℤ) < 5 - (low : ℤ) := by omega
    rw [hval, if_neg h1]
  · rw [hval]
    by_cases h1 : (0 : ℤ) < 5 - (low : ℤ)
    · rw [if_pos h1]
      apply div_nonneg
      · positivity
      · have h2 : (0 : ℚ) < ((5 - (low : ℤ) : ℤ) : ℚ) := by exact_mod_cast h1
        linarith
    · rw [if_neg h1]; norm_num
  · rw [hval]
    by_cases h1 : (0 : ℤ) < 5 - (low : ℤ)
    · rw [if_pos h1]
      have hd : (0 : ℚ) < ((5 - (low : ℤ) : ℤ) : ℚ) := by exact_mod_cast h1
      rw [div_le_iff₀ hd]
      have hle : low ≤ 5 := by omega
      have h2 : ((low : ℤ) : ℚ) ≤ 5 := by exact_mod_cast (by omega : (low : ℤ) ≤ 5)
      have h3 : (1 : ℚ) ≤ ((5 - (low : ℤ) : ℤ) : ℚ) := by
        exact_mod_cast (by omega : (1 : ℤ) ≤ 5 - (low : ℤ))
      nlinarith
    · rw [if_neg h1]

/-- Witness for C8 at the concrete draw [1,2,3,40,50]. -/
theorem C8_witness :
    calculate_low_high_ratio [1, 2, 3, 40, 50] = (3 : ℚ) / 2 := by
  have h := C8_low_high_ratio_total_bounded [1, 2, 3, 40, 50] (by decide)
    (by decide)
  have h2 := h.1 (by decide)
  rw [h2]
  norm_num

/-- C2: the heat index equals the clamp of the specification, always lies in
[0, 100], and heat index and category rank are monotonically non-decreasing
in the z-score. -/
theorem C2_heat_index_clamp_monotone (z z1 z2 : ℚ) (h : z1 ≤ z2) :
    heat_index z = clamp 0 100 (50 + z * (1667 / 100)) ∧
    (0 ≤ heat_index z ∧ heat_index z ≤ 100) ∧
    heat_index z1 ≤ heat_index z2 ∧
    category_rank (get_heat_category z1) ≤
      category_rank (get_heat_category z2) := by
  refine ⟨rfl, ⟨le_max_left 0 _, ?_⟩, ?_, ?_⟩
  · exact max_le (by norm_num) (min_le_left 100 _)
  · exact max_le_max le_rfl (min_le_min le_rfl (by nlinarith))
  · unfold get_heat_category
    split_ifs <;> simp only [category_rank] <;>
      first | decide | (exfalso; linarith)

/-- Witness for C2 at z1 = 0, z2 = 1. -/
theorem C2_witness :
    heat_index 0 = clamp 0 100 (50 + 0 * (1667 / 100)) ∧
    heat_index 0 ≤ heat_index 1 :=
  ⟨(C2_heat_index_clamp_monotone 0 0 1 (by norm_num)).1,
   (C2_heat_index_clamp_monotone 0 0 1 (by norm_num)).2.2.1⟩

/-- C5: category assignment follows the ordered non-overlapping z-score
thresholds of the specification exactly, and a number whose observed count
equals its expected count has z-score 0, heat index 50 and category neutral
(the square-root parameter `s` is positive whenever the dataset is
non-empty). -/
theorem C5_category_thresholds (z e s : ℚ) (hs : 0 < s) :
    (2 ≤ z → get_heat_category z = .blazing_hot) ∧
    (1 ≤ z ∧ z < 2 → get_heat_category z = .hot) ∧
    (1 / 2 ≤ z ∧ z < 1 → get_heat_category z = .warm) ∧
    (-(1 / 2) ≤ z ∧ z < 1 / 2 → get_heat_category z = .neutral) ∧
    (-1 ≤ z ∧ z < -(1 / 2) → get_heat_category z = .cool) ∧
    (-2 ≤ z ∧ z < -1 → get_heat_category z = .cold) ∧
    (z < -2 → get_heat_category z = .freezing) ∧
    z_score e e s = 0 ∧
    heat_index (z_score e e s) = 50 ∧
    get_heat_category (z_score e e s) = .neutral := by
  have hz : z_score e e s = 0 := by
    unfold z_score; rw [sub_self, zero_div]
  refine ⟨?_, ?_, ?_, ?_, ?_, ?_, ?_, hz, ?_, ?_⟩
  · intro h1; unfold get_heat_category; split_ifs <;> first | rfl | linarith
  · rintro ⟨h1, h2⟩; unfold get_heat_category
    split_ifs <;> first | rfl | linarith
  · rintro ⟨h1, h2⟩; unfold get_heat_category
    split_ifs <;> first | rfl | linarith
  · rintro ⟨h1, h2⟩; unfold get_heat_category
    split_ifs <;> first | rfl | linarith
  · rintro ⟨h1, h2⟩; unfold get_heat_category
    split_ifs <;> first | rfl | linarith
  · rintro ⟨h1, h2⟩; unfold get_heat_category
    split_ifs <;> first | rfl | linarith
  · intro h1; unfold get_heat_category; split_ifs <;> first | rfl | linarith
  · rw [hz]; unfold heat_index; norm_num
  · rw [hz]; unfold get_heat_category; norm_num

/-- Witness for C5 at z = 3, e = 1, s = 1. -/
theorem C5_witness :
    get_heat_category 3 = .blazing_hot ∧ get_heat_category (z_score 1 1 1) = .neutral :=
  ⟨(C5_category_thresholds 3 1 1 (by norm_num)).1 (by norm_num),
   (C5_category_thresholds 3 1 1 (by norm_num)).2.2.2.2.2.2.2.2.2⟩

/-- C6 counterexample: on the empty draw sequence, `calculate_heat_index`
fails with a `ZeroDivisionError` (raised by the integer division in the
percentage computation), not with the `EmptyDatasetError` named by the
specification; no code in the repository defines an `EmptyDatasetError`. -/
theorem C6_empty_dataset_raises_zero_division :
    calculate_heat_index [] 0 = Except.error PyExc.zero_division ∧
    PyExc.zero_division ≠ PyExc.empty_dataset_error :=
  ⟨rfl, by decide⟩

/-- C6 amended: on the empty draw sequence, `calculate_heat_index` fails
with a `ZeroDivisionError`, surfaced to the caller as an exception (the
`Except.error` propagates; nothing is silently corrected), whatever value
the square-root parameter takes. -/
theorem C6_empty_dataset_always_fails (s : ℚ) :
    calculate_heat_index [] s = Except.error PyExc.zero_division := rfl

/-! ## ClusterSelector (`advanced_pattern_analyzer.py`) -/

/-- Embedding of the best-score update of `clustering_analysis`
(`advanced_pattern_analyzer.py` lines 193-195): `if score > best_score:`
replace the best pair, i.e. the best is replaced only when the candidate
silhouette score is strictly greater than the best seen so far. -/
def sweep_step (f : ℕ → ℚ) (best : ℕ × ℚ) (k : ℕ) : ℕ × ℚ :=
  if best.2 < f k then (k, f k) else best

/-- Embedding of the cluster-count sweep of `clustering_analysis`
(`advanced_pattern_analyzer.py` lines 185-197): `for k in range(2, 8)`
starting from `best_k = 3`, `best_score = -1`. The silhouette score that
`silhouette_score` returns for a given `k` is abstracted as `f k` (by
definition a silhouette score lies in [-1, 1], which is the hypothesis used
below). -/
def clustering_sweep (f : ℕ → ℚ) : ℕ × ℚ :=
  (List.range' 2 6).foldl (sweep_step f) (3, -1)

/-- The per-k silhouette scores evaluated by the sweep, in visiting order. -/
def sweep_scores (f : ℕ → ℚ) : List (ℕ × ℚ) :=
  (List.range' 2 6).map fun k => (k, f k)

/-- Invariant of the best-score fold: starting from any state with k in
[2,7] and score in [-1,1], folding `sweep_step` over a strictly increasing
list of candidate ks in [2,7] with scores in [-1,1] keeps the state in
range, never decreases the score, bounds every visited score, and either
leaves the state untouched or moves it to the first visited k attaining the
final (strictly improved) score. -/
theorem sweep_foldl_inv (f : ℕ → ℚ) (L : List ℕ) :
    ∀ s : ℕ × ℚ,
      (∀ k ∈ L, -1 ≤ f k ∧ f k ≤ 1) →
      (∀ k ∈ L, 2 ≤ k ∧ k ≤ 7) →
      L.Pairwise (· < ·) →
      2 ≤ s.1 → s.1 ≤ 7 → -1 ≤ s.2 → s.2 ≤ 1 →
      (2 ≤ (L.foldl (sweep_step f) s).1 ∧ (L.foldl (sweep_step f) s).1 ≤ 7) ∧
      (-1 ≤ (L.foldl (sweep_step f) s).2 ∧
        (L.foldl (sweep_step f) s).2 ≤ 1) ∧
      s.2 ≤ (L.foldl (sweep_step f) s).2 ∧
      (∀ k ∈ L, f k ≤ (L.foldl (sweep_step f) s).2) ∧
      (L.foldl (sweep_step f) s = s ∨
        (f (L.foldl (sweep_step f) s).1 = (L.foldl (sweep_step f) s).2 ∧
          s.2 < (L.foldl (sweep_step f) s).2 ∧
          ∀ j ∈ L, j < (L.foldl (sweep_step f) s).1 →
            f j < (L.foldl (sweep_step f) s).2)) := by
  induction L with
  | nil =>
    intro s _ _ _ hs1 hs2 hs3 hs4
    exact ⟨⟨hs1, hs2⟩, ⟨hs3, hs4⟩, le_rfl, by simp, Or.inl rfl⟩
  | cons k L ih =>
    intro s hb hk hp hs1 hs2 hs3 hs4
    have hbL : ∀ m ∈ L, -1 ≤ f m ∧ f m ≤ 1 := fun m hm => hb m (by simp [hm])
    have hkL : ∀ m ∈ L, 2 ≤ m ∧ m ≤ 7 := fun m hm => hk m (by simp [hm])
    have hpL : L.Pairwise (· < ·) := (List.pairwise_cons.mp hp).2
    have hkgt : ∀ m ∈ L, k < m := (List.pairwise_cons.mp hp).1
    have hfk := hb k (by simp)
    have hkk := hk k (by simp)
    rw [List.foldl_cons]
    by_cases hcase : s.2 < f k
    · have hstep : sweep_step f s k = (k, f k) := by
        unfold sweep_step; rw [if_pos hcase]
      rw [hstep]
      obtain ⟨r1, r2, r3, r4, r5⟩ :=
        ih (k, f k) hbL hkL hpL hkk.1 hkk.2 hfk.1 hfk.2
      refine ⟨r1, r2, ?_, ?_, ?_⟩
      · exact le_trans (le_of_lt hcase) r3
      · intro m hm
        rcases List.mem_cons.mp hm with hm | hm
        · subst hm; exact r3
        · exact r4 m hm
      · rcases r5 with r5 | ⟨q1, q2, q3⟩
        · refine Or.inr ⟨?_, ?_, ?_⟩
          · rw [r5]
          · rw [r5]; exact hcase
          · intro j hj hjlt
            rcases List.mem_cons.mp hj with hj | hj
            · subst hj; rw [r5] at hjlt; exact absurd hjlt (lt_irrefl _)
            · rw [r5] at hjlt
              exact absurd hjlt (not_lt.mpr (le_of_lt (hkgt j hj)))
        · refine Or.inr ⟨q1, lt_trans hcase q2, ?_⟩
          intro j hj hjlt
          rcases List.mem_cons.mp hj with hj | hj
          · subst hj; exact q2
          · exact q3 j hj hjlt
    · have hstep : sweep_step f s k = s := by
        unfold sweep_step; rw [if_neg hcase]
      rw [hstep]
      obtain ⟨r1, r2, r3, r4, r5⟩ := ih s hbL hkL hpL hs1 hs2 hs3 hs4
      refine ⟨r1, r2, r3, ?_, ?_⟩
      · intro m hm
        rcases List.mem_cons.mp hm with hm | hm
        · subst hm; exact le_trans (not_lt.mp hcase) r3
        · exact r4 m hm
      · rcases r5 with r5 | ⟨q1, q2, q3⟩
        · exact Or.inl r5
        · refine Or.inr ⟨q1, q2, ?_⟩
          intro j hj hjlt
          rcases List.mem_cons.mp hj with hj | hj
          · subst hj; exact lt_of_le_of_lt (not_lt.mp hcase) q2
          · exact q3 j hj hjlt

/-- C3: the cluster-count sweep evaluates every k from 2 to 7 inclusive in
ascending order, replaces the current best only on a strictly greater
silhouette score (so the first k wins ties), and returns a chosen k in
[2,7] with a score in [-1,1]; moreover the returned score bounds every
evaluated score, and either no candidate beat the initial (3, -1) state or
the returned k is the first k attaining the returned score. -/
theorem C3_cluster_sweep (f : ℕ → ℚ)
    (hf : ∀ k, 2 ≤ k → k ≤ 7 → -1 ≤ f k ∧ f k ≤ 1) :
    sweep_scores f =
      [(2, f 2), (3, f 3), (4, f 4), (5, f 5), (6, f 6), (7, f 7)] ∧
    (∀ best k, f k ≤ best.2 → sweep_step f best k = best) ∧
    (∀ best k, best.2 < f k → sweep_step f best k = (k, f k)) ∧
    (2 ≤ (clustering_sweep f).1 ∧ (clustering_sweep f).1 ≤ 7) ∧
    (-1 ≤ (clustering_sweep f).2 ∧ (clustering_sweep f).2 ≤ 1) ∧
    (∀ k, 2 ≤ k → k ≤ 7 → f k ≤ (clustering_sweep f).2) ∧
    (clustering_sweep f = (3, -1) ∨
      (f (clustering_sweep f).1 = (clustering_sweep f).2 ∧
        ∀ j, 2 ≤ j → j < (clustering_sweep f).1 →
          f j < (clustering_sweep f).2)) := by
  have hmem : ∀ k, k ∈ List.range' 2 6 ↔ 2 ≤ k ∧ k ≤ 7 := by
    intro k
    rw [List.mem_range'_1]
    omega
  obtain ⟨r1, r2, _, r4, r5⟩ :=
    sweep_foldl_inv f (List.range' 2 6) (3, -1)
      (fun k hk => hf k ((hmem k).mp hk).1 ((hmem k).mp hk).2)
      (fun k hk => (hmem k).mp hk)
      (by decide) (by norm_num) (by norm_num) (by norm_num) (by norm_num)
  refine ⟨rfl, ?_, ?_, r1, r2, ?_, ?_⟩
  · intro best k h
    unfold sweep_step
    rw [if_neg (not_lt.mpr h)]
  · intro best k h
    unfold sweep_step
    rw [if_pos h]
  · intro k h1 h2
    exact r4 k ((hmem k).mpr ⟨h1, h2⟩)
  · rcases r5 with r5 | ⟨q1, q2, q3⟩
    · exact Or.inl r5
    · refine Or.inr ⟨q1, ?_⟩
      intro j h1 h2
      have hj7 : j ≤ 7 := le_trans (le_of_lt h2) r1.2
      exact q3 j ((hmem j).mpr ⟨h1, hj7⟩) h2

/-- Witness for C3 with every silhouette score equal to 1/2 (the sweep then
selects k = 2, the first candidate). -/
theorem C3_witness :
    2 ≤ (clustering_sweep fun _ => (1 : ℚ) / 2).1 ∧
    (clustering_sweep fun _ => (1 : ℚ) / 2).1 ≤ 7 :=
  (C3_cluster_sweep (fun _ => (1 : ℚ) / 2)
    (fun _ _ _ => ⟨by norm_num, by norm_num⟩)).2.2.2.1

/-! ## WeightedSampler (`smart_lottery_generator.py`, `final_lottery_generator.py`)

Randomness is embedded as an oracle `g : ℕ → ℕ` of raw values together with
a running index `i`; each stdlib primitive consumes oracle values and the
properties below hold for every oracle. -/

/-- Embedding of `random.randint(a, b)` (both bounds inclusive): one oracle
value reduced into the range. -/
def random_randint (g : ℕ → ℕ) (i a b : ℕ) : ℕ :=
  a + g i % (b + 1 - a)

/-- Embedding of `random.choice(l)`: one oracle value reduced to an index.
Python raises `IndexError` on an empty list; the pools this is applied to
below are provably non-empty, so the `getD` default is never reached. -/
def random_choice (l : List ℕ) (r : ℕ) : ℕ :=
  l.getD (r % l.length) 0

/-- Selection core of `random.sample(pop, k)`: remove an oracle-chosen
element of the remaining population, k times, returning the selection and
the next oracle index. -/
def sample_go (g : ℕ → ℕ) : ℕ → List ℕ → ℕ → List ℕ × ℕ
  | i, _, 0 => ([], i)
  | i, pop, k + 1 =>
    let j := g i % pop.length
    let rest := pop.eraseIdx j
    let r := sample_go g (i + 1) rest k
    (pop.getD j 0 :: r.1, r.2)

/-- Embedding of `random.sample(pop, k)`: k distinct positions of the
population, or `ValueError` when the requested sample is larger than the
population. -/
def random_sample (g : ℕ → ℕ) (i : ℕ) (pop : List ℕ) (k : ℕ) :
    Except PyExc (List ℕ × ℕ) :=
  if k ≤ pop.length then Except.ok (sample_go g i pop k)
  else Except.error PyExc.value_error

/-- The white-ball domain `range(1, 70)` as a list. -/
def white_domain : List ℕ :=
  List.range' 1 69

/-- The powerball domain `range(1, 27)` as a list. -/
def pb_domain : List ℕ :=
  List.range' 1 26

/-- Embedding of the repetition-list pool construction of
`generate_frequency_weighted_strategy` (`final_lottery_generator.py`
lines 190-197 and 207-211): each `num` of the domain is appended
`max(1, count // scale)` times (`//` is Python integer division, i.e. `ℕ`
division). -/
def weighted_pool (freq : ℕ → ℕ) (domain : List ℕ) (scale : ℕ) : List ℕ :=
  domain.flatMap fun num => List.replicate (max 1 (freq num / scale)) num

/-- Embedding of the acceptance loop of `generate_frequency_weighted_strategy`
(`final_lottery_generator.py` lines 200-204): `while len(white_balls) < 5`
draw `random.choice(selection_pool)` and append it if not already chosen.
An adversarial oracle can repeat rejected values forever, so the loop is
run on explicit fuel and returns `none` when the fuel is exhausted. -/
def pick_unique (g : ℕ → ℕ) (pool : List ℕ) :
    ℕ → ℕ → List ℕ → Option (List ℕ × ℕ)
  | i, fuel, white_balls =>
    if 5 ≤ white_balls.length then some (white_balls, i)
    else
      match fuel with
      | 0 => none
      | fuel + 1 =>
        pick_unique g pool (i + 1) fuel
          (if white_balls.contains (random_choice pool (g i)) then white_balls
           else white_balls ++ [random_choice pool (g i)])

/-- Embedding of `generate_frequency_weighted_strategy`
(`final_lottery_generator.py` lines 185-215, identical to
`generate_frequency_weighted` of `ultimate_lottery_generator.py`
lines 264-296): frequency-weighted pools for white balls (scale 10) and
powerballs (scale 5), acceptance loop for 5 unique white balls, a weighted
powerball choice, white balls returned sorted. -/
def generate_frequency_weighted_strategy (white_freq pb_freq : ℕ → ℕ)
    (g : ℕ → ℕ) (fuel : ℕ) : Option (List ℕ × ℕ) :=
  let selection_pool := weighted_pool white_freq white_domain 10
  match pick_unique g selection_pool 0 fuel [] with
  | none => none
  | some (white_balls, i) =>
    let pb_pool := weighted_pool pb_freq pb_domain 5
    some (white_balls.insertionSort (· ≤ ·), random_choice pb_pool (g i))

/-- The `position_preferences` table of `generate_position_strategy`
(`smart_lottery_generator.py` lines 155-161). -/
def position_preferences : ℕ → List ℕ
  | 0 => [1, 2, 3, 4, 5]
  | 1 => [12, 21, 28, 16, 15]
  | 2 => [37, 33, 35, 34, 32]
  | 3 => [52, 53, 45, 47, 39]
  | 4 => [69, 59, 58, 67, 68]
  | _ => []

/-- One per-position pick of `generate_position_strategy`
(`smart_lottery_generator.py` lines 166-173): with the 70% coin
(`random.random() < 0.7`, embedded as a 7-in-10 test on one oracle value)
and a non-empty hot sub-list, choose among the hot preferred numbers,
otherwise among all preferred numbers. Each position consumes two oracle
values. -/
def position_pick (hot : List ℕ) (g : ℕ → ℕ) (pos : ℕ) : ℕ :=
  let preferred_nums := position_preferences pos
  let hot_in_position := preferred_nums.filter fun n => hot.contains n
  if hot_in_position ≠ [] ∧ g (2 * pos) % 10 < 7 then
    random_choice hot_in_position (g (2 * pos + 1))
  else
    random_choice preferred_nums (g (2 * pos + 1))

/-- Embedding of the uniqueness-repair loop of `generate_position_strategy`
(`smart_lottery_generator.py` lines 176-181):
`while len(set(white_balls)) < 5` dedup, then fill with
`random.sample(available, remaining)`. One pass of the body always reaches
5 distinct values (the sample is drawn from the unused domain), so the loop
body executes at most once and is embedded as a single conditional step. -/
def ensure_unique (g : ℕ → ℕ) (i : ℕ) (white_balls : List ℕ) :
    Except PyExc (List ℕ × ℕ) :=
  if white_balls.dedup.length < 5 then
    let d := white_balls.dedup
    let available := white_domain.filter fun n => !(d.contains n)
    match random_sample g i available (5 - d.length) with
    | Except.error e => Except.error e
    | Except.ok (fill, i2) => Except.ok (d ++ fill, i2)
  else Except.ok (white_balls, i)

/-- Embedding of `generate_position_strategy` (`smart_lottery_generator.py`
lines 149-186): one pick per ascending rank position, uniqueness repair,
uniform powerball, white balls returned sorted. -/
def generate_position_strategy (hot : List ℕ) (g : ℕ → ℕ) :
    Except PyExc (List ℕ × ℕ) :=
  let white_balls := (List.range 5).map (position_pick hot g)
  match ensure_unique g 10 white_balls with
  | Except.error e => Except.error e
  | Except.ok (whites, i) =>
    Except.ok (whites.insertionSort (· ≤ ·), random_randint g i 1 26)

/-- Embedding of `generate_hot_strategy` (`smart_lottery_generator.py`
lines 75-96): `hot_count = random.randint(3, 4)` hot numbers via
`random.sample` (which raises `ValueError` when the hot pool is smaller
than `hot_count`), the rest via `random.sample` over the unused domain,
then a uniform powerball. -/
def generate_hot_strategy (hot : List ℕ) (g : ℕ → ℕ) :
    Except PyExc (List ℕ × ℕ) :=
  let hot_count := random_randint g 0 3 4
  match random_sample g 1 hot hot_count with
  | Except.error e => Except.error e
  | Except.ok (hot_selected, i1) =>
    let remaining := 5 - hot_selected.length
    let available := white_domain.filter fun n => !(hot_selected.contains n)
    match random_sample g i1 available remaining with
    | Except.error e => Except.error e
    | Except.ok (fill, i2) =>
      Except.ok ((hot_selected ++ fill).insertionSort (· ≤ ·),
        random_randint g i2 1 26)

/-- Embedding of the `while len(white_balls) < 5` completion loop of
`generate_ultimate_hot_strategy` (`final_lottery_generator.py`
lines 101-104): append `random.choice(available)` where `available` is the
unused white-ball domain. Each iteration appends a fresh element, so the
loop runs exactly `5 - len(white_balls)` times, which is the explicit step
count here. -/
def fill_random (g : ℕ → ℕ) : ℕ → ℕ → List ℕ → List ℕ × ℕ
  | i, 0, white_balls => (white_balls, i)
  | i, steps + 1, white_balls =>
    let available := white_domain.filter fun n => !(white_balls.contains n)
    fill_random g (i + 1) steps (white_balls ++ [random_choice available (g i)])

/-- Embedding of `generate_ultimate_hot_strategy`
(`final_lottery_generator.py` lines 79-110): up to `min(4, len(hot))` hot
numbers via `random.sample`, completion first from the 20 most frequent
numbers (`white_freq.most_common(20)`, a caller-supplied list here), then
uniformly from the unused domain; powerball chosen among the 10 most
common powerballs (also caller-supplied). -/
def generate_ultimate_hot_strategy
    (hot most_frequent most_common_pbs : List ℕ) (g : ℕ → ℕ) :
    Except PyExc (List ℕ × ℕ) :=
  let hot_count := min 4 hot.length
  let step1 : Except PyExc (List ℕ × ℕ) :=
    if 0 < hot_count then random_sample g 0 hot hot_count
    else Except.ok ([], 0)
  match step1 with
  | Except.error e => Except.error e
  | Except.ok (w1, i1) =>
    let remaining := 5 - w1.length
    let step2 : Except PyExc (List ℕ × ℕ) :=
      if 0 < remaining then
        let available_frequent :=
          most_frequent.filter fun n => !(w1.contains n)
        if available_frequent ≠ [] then
          match random_sample g i1 available_frequent
              (min remaining available_frequent.length) with
          | Except.error e => Except.error e
          | Except.ok (sel, i2) => Except.ok (w1 ++ sel, i2)
        else Except.ok (w1, i1)
      else Except.ok (w1, i1)
    match step2 with
    | Except.error e => Except.error e
    | Except.ok (w2, i2) =>
      let r := fill_random g i2 (5 - w2.length) w2
      Except.ok (r.1.insertionSort (· ≤ ·),
        random_choice most_common_pbs (g r.2))

/-! ## Pattern analysis hot/cold sets (`smart_lottery_generator.py`) -/

/-- Embedding of the hot-number selection of `analyze_patterns`
(`smart_lottery_generator.py` lines 61-65): numbers of the white domain
whose z-score exceeds 2. -/
def hot_numbers (count : ℕ → ℕ) (expected s : ℚ) : List ℕ :=
  white_domain.filter fun num =>
    decide (2 < z_score (count num : ℚ) expected s)

/-- Embedding of the cold-number selection of `analyze_patterns`
(`smart_lottery_generator.py` lines 61-67): numbers of the white domain
whose z-score is below -2. -/
def cold_numbers (count : ℕ → ℕ) (expected s : ℚ) : List ℕ :=
  white_domain.filter fun num =>
    decide (z_score (count num : ℚ) expected s < -2)

/-- Embedding of the composition report of `display_numbers`
(`smart_lottery_generator.py` lines 205-207): hot count, cold count, and
`neutral_count = 5 - hot_count - cold_count` (Python ints, hence `ℤ`). -/
def display_composition (white_balls hot cold : List ℕ) : ℤ × ℤ × ℤ :=
  let hot_count : ℤ := white_balls.countP fun n => hot.contains n
  let cold_count : ℤ := white_balls.countP fun n => cold.contains n
  (hot_count, cold_count, 5 - hot_count - cold_count)

/-! ## Sampling lemmas -/

/-- In a duplicate-free list, the element at an index does not survive the
removal of that index. -/
theorem getElem_not_mem_eraseIdx_of_nodup (l : List ℕ) (j : ℕ)
    (h : j < l.length) (hn : l.Nodup) : l[j] ∉ l.eraseIdx j := by
  intro hmem
  rw [List.eraseIdx_eq_take_drop_succ] at hmem
  have hl : l.take j ++ l[j] :: l.drop (j + 1) = l := by
    rw [← List.drop_eq_getElem_cons h, List.take_append_drop]
  have hn2 : (l.take j ++ l[j] :: l.drop (j + 1)).Nodup := by
    rw [hl]; exact hn
  rw [List.nodup_append] at hn2
  obtain ⟨_, hn3, hdisj⟩ := hn2
  rcases List.mem_append.mp hmem with hmem | hmem
  · exact hdisj hmem (List.mem_cons_self _ _)
  · exact (List.nodup_cons.mp hn3).1 hmem

/-- A `sample_go` selection of size at most the population has exactly the
requested length. -/
theorem sample_go_length (g : ℕ → ℕ) :
    ∀ (k i : ℕ) (pop : List ℕ), k ≤ pop.length →
      (sample_go g i pop k).1.length = k := by
  intro k
  induction k with
  | zero => intro i pop _; rfl
  | succ k ih =>
    intro i pop hk
    have hpos : 0 < pop.length := by omega
    have hj : g i % pop.length < pop.length := Nat.mod_lt _ hpos
    have hrest : (pop.eraseIdx (g i % pop.length)).length = pop.length - 1 := by
      rw [List.length_eraseIdx, if_pos hj]
    simp only [sample_go, List.length_cons]
    rw [ih (i + 1) _ (by omega)]

/-- Every element of a `sample_go` selection comes from the population. -/
theorem sample_go_subset (g : ℕ → ℕ) :
    ∀ (k i : ℕ) (pop : List ℕ), k ≤ pop.length →
      ∀ x ∈ (sample_go g i pop k).1, x ∈ pop := by
  intro k
  induction k with
  | zero => intro i pop _ x hx; exact absurd hx (by simp [sample_go])
  | succ k ih =>
    intro i pop hk x hx
    have hpos : 0 < pop.length := by omega
    have hj : g i % pop.length < pop.length := Nat.mod_lt _ hpos
    have hrest : (pop.eraseIdx (g i % pop.length)).length = pop.length - 1 := by
      rw [List.length_eraseIdx, if_pos hj]
    simp only [sample_go, List.mem_cons] at hx
    rcases hx with hx | hx
    · rw [hx, List.getD_eq_getElem _ _ hj]
      exact List.getElem_mem hj
    · exact List.mem_of_mem_eraseIdx (ih (i + 1) _ (by omega) x hx)

/-- A `sample_go` selection from a duplicate-free population is
duplicate-free. -/
theorem sample_go_nodup (g : ℕ → ℕ) :
    ∀ (k i : ℕ) (pop : List ℕ), k ≤ pop.length → pop.Nodup →
      (sample_go g i pop k).1.Nodup := by
  intro k
  induction k with
  | zero => intro i pop _ _; simp [sample_go]
  | succ k ih =>
    intro i pop hk hn
    have hpos : 0 < pop.length := by omega
    have hj : g i % pop.length < pop.length := Nat.mod_lt _ hpos
    have hrest : (pop.eraseIdx (g i % pop.length)).length = pop.length - 1 := by
      rw [List.length_eraseIdx, if_pos hj]
    simp only [sample_go, List.nodup_cons]
    refine ⟨?_, ih (i + 1) _ (by omega) (hn.eraseIdx _)⟩
    intro hmem
    rw [List.getD_eq_getElem _ _ hj] at hmem
    exact getElem_not_mem_eraseIdx_of_nodup pop _ hj hn
      (sample_go_subset g k (i + 1) _ (by omega) _ hmem)

/-- A successful `random.sample` returns the requested number of elements,
all from the population, duplicate-free when the population is. -/
theorem random_sample_ok (g : ℕ → ℕ) (i : ℕ) (pop : List ℕ) (k : ℕ)
    (sel : List ℕ) (i2 : ℕ)
    (h : random_sample g i pop k = Except.ok (sel, i2)) :
    sel.length = k ∧ (∀ x ∈ sel, x ∈ pop) ∧ (pop.Nodup → sel.Nodup) := by
  unfold random_sample at h
  by_cases hk : k ≤ pop.length
  · rw [if_pos hk] at h
    have hsel : sel = (sample_go g i pop k).1 := by
      injection h with h2
      rw [h2]
    subst hsel
    exact ⟨sample_go_length g k i pop hk, sample_go_subset g k i pop hk,
      sample_go_nodup g k i pop hk⟩
  · rw [if_neg hk] at h
    exact absurd h (by simp)

/-- A non-empty list yields a member under `random_choice`. -/
theorem random_choice_mem (l : List ℕ) (r : ℕ) (h : l ≠ []) :
    random_choice l r ∈ l := by
  have hpos : 0 < l.length := List.length_pos.mpr h
  have hj : r % l.length < l.length := Nat.mod_lt _ hpos
  rw [random_choice, List.getD_eq_getElem _ _ hj]
  exact List.getElem_mem hj

/-- The bounds of `random.randint(1, 26)`. -/
theorem random_randint_1_26 (g : ℕ → ℕ) (i : ℕ) :
    1 ≤ random_randint g i 1 26 ∧ random_randint g i 1 26 ≤ 26 := by
  unfold random_randint
  have : g i % 26 < 26 := Nat.mod_lt _ (by norm_num)
  omega

/-- Membership in a weighted repetition pool is membership in its domain. -/
theorem mem_weighted_pool (freq : ℕ → ℕ) (domain : List ℕ) (scale x : ℕ) :
    x ∈ weighted_pool freq domain scale ↔ x ∈ domain := by
  unfold weighted_pool
  rw [List.mem_flatMap]
  constructor
  · rintro ⟨a, ha, hx⟩
    rw [List.eq_of_mem_replicate hx]
    exact ha
  · intro hx
    refine ⟨x, hx, ?_⟩
    rw [List.mem_replicate]
    exact ⟨by omega, rfl⟩

/-- A weighted repetition pool over a non-empty domain is non-empty. -/
theorem weighted_pool_ne_nil (freq : ℕ → ℕ) (domain : List ℕ) (scale : ℕ)
    (h : domain ≠ []) : weighted_pool freq domain scale ≠ [] := by
  obtain ⟨a, ha⟩ := List.exists_mem_of_ne_nil domain h
  intro hnil
  have hmem : a ∈ weighted_pool freq domain scale :=
    (mem_weighted_pool freq domain scale a).mpr ha
  rw [hnil] at hmem
  exact absurd hmem (List.not_mem_nil a)

/-- In a weighted repetition pool over a duplicate-free domain, each domain
member occurs exactly its repetition weight `max 1 (freq n / scale)` times. -/
theorem count_weighted_pool (freq : ℕ → ℕ) (scale : ℕ) :
    ∀ domain : List ℕ, domain.Nodup → ∀ n ∈ domain,
      (weighted_pool freq domain scale).count n = max 1 (freq n / scale) := by
  intro domain
  induction domain with
  | nil => intro _ n hn; exact absurd hn (List.not_mem_nil n)
  | cons a t ih =>
    intro hnd n hn
    obtain ⟨hat, htnd⟩ := List.nodup_cons.mp hnd
    rw [weighted_pool, List.flatMap_cons, List.count_append]
    rcases List.mem_cons.mp hn with rfl | hnt
    · have h2 : (weighted_pool freq t scale).count n = 0 := by
        rw [List.count_eq_zero]
        intro hmem
        exact hat ((mem_weighted_pool freq t scale n).mp hmem)
      rw [List.count_replicate, if_pos (by simp)]
      rw [weighted_pool] at h2
      rw [h2, Nat.add_zero]
    · have hna : ¬ (a == n) = true := by
        simp only [beq_iff_eq]
        intro h2
        rw [h2] at hat
        exact hat hnt
      rw [List.count_replicate, if_neg hna]
      have h3 := ih htnd n hnt
      rw [weighted_pool] at h3
      rw [h3, Nat.zero_add]

/-- Invariant of the acceptance loop `pick_unique`: on success the result
has exactly 5 entries, is duplicate-free when the accumulator was, and
every entry comes from the accumulator or from the pool. -/
theorem pick_unique_ok (g : ℕ → ℕ) (pool : List ℕ) (hpool : pool ≠ []) :
    ∀ (fuel i : ℕ) (acc w : List ℕ) (i2 : ℕ),
      acc.length ≤ 5 →
      pick_unique g pool i fuel acc = some (w, i2) →
      w.length = 5 ∧ (acc.Nodup → w.Nodup) ∧
        ∀ x ∈ w, x ∈ acc ∨ x ∈ pool := by
  intro fuel
  induction fuel with
  | zero =>
    intro i acc w i2 hle h
    rw [pick_unique] at h
    by_cases hacc : 5 ≤ acc.length
    · rw [if_pos hacc] at h
      simp only [Option.some.injEq, Prod.mk.injEq] at h
      obtain ⟨rfl, rfl⟩ := h
      exact ⟨by omega, fun hn => hn, fun x hx => Or.inl hx⟩
    · rw [if_neg hacc] at h
      exact absurd h (by simp)
  | succ fuel ih =>
    intro i acc w i2 hle h
    rw [pick_unique] at h
    by_cases hacc : 5 ≤ acc.length
    · rw [if_pos hacc] at h
      simp only [Option.some.injEq, Prod.mk.injEq] at h
      obtain ⟨rfl, rfl⟩ := h
      exact ⟨by omega, fun hn => hn, fun x hx => Or.inl hx⟩
    · rw [if_neg hacc] at h
      by_cases hc : acc.contains (random_choice pool (g i))
      · rw [if_pos hc] at h
        obtain ⟨r1, r2, r3⟩ := ih (i + 1) acc w i2 hle h
        exact ⟨r1, r2, r3⟩
      · rw [if_neg hc] at h
        have hnum : random_choice pool (g i) ∈ pool :=
          random_choice_mem pool (g i) hpool
        have hlen2 : (acc ++ [random_choice pool (g i)]).length ≤ 5 := by
          rw [List.length_append, List.length_cons, List.length_nil]
          omega
        obtain ⟨r1, r2, r3⟩ := ih (i + 1) _ w i2 hlen2 h
        refine ⟨r1, ?_, ?_⟩
        · intro hn
          apply r2
          rw [List.nodup_append]
          refine ⟨hn, List.nodup_singleton _, ?_⟩
          intro x hx hx2
          rw [List.mem_singleton] at hx2
          rw [hx2] at hx
          simp at hc
          exact hc hx
        · intro x hx
          rcases r3 x hx with hx2 | hx2
          · rcases List.mem_append.mp hx2 with hx3 | hx3
            · exact Or.inl hx3
            · rw [List.mem_singleton] at hx3
              rw [hx3]
              exact Or.inr hnum
          · exact Or.inr hx2

/-- The white-ball domain is duplicate-free and has 69 elements. -/
theorem white_domain_nodup : white_domain.Nodup := by
  decide

/-- Invariant of the completion loop `fill_random`: as long as domain room
remains, each step appends a fresh domain element, so the length grows by
exactly the step count, freshness preserves duplicate-freedom, and every
element comes from the accumulator or the domain. -/
theorem fill_random_ok (g : ℕ → ℕ) :
    ∀ (steps i : ℕ) (acc : List ℕ), acc.length + steps ≤ 69 →
      (fill_random g i steps acc).1.length = acc.length + steps ∧
      (acc.Nodup → (fill_random g i steps acc).1.Nodup) ∧
      ∀ x ∈ (fill_random g i steps acc).1, x ∈ acc ∨ x ∈ white_domain := by
  intro steps
  induction steps with
  | zero =>
    intro i acc _
    exact ⟨rfl, fun hn => hn, fun x hx => Or.inl hx⟩
  | succ steps ih =>
    intro i acc hle
    have havail : white_domain.filter (fun n => !(acc.contains n)) ≠ [] := by
      intro hnil
      rw [List.filter_eq_nil_iff] at hnil
      have hsub : white_domain ⊆ acc := by
        intro n hn
        have h2 := hnil n hn
        simp at h2
        exact h2
      have h3 := (List.subperm_of_subset white_domain_nodup hsub).length_le
      have h4 : white_domain.length = 69 := by decide
      omega
    set x := random_choice (white_domain.filter fun n => !(acc.contains n))
      (g i) with hx
    have hxmem : x ∈ white_domain.filter fun n => !(acc.contains n) :=
      random_choice_mem _ _ havail
    rw [List.mem_filter] at hxmem
    obtain ⟨hxdom, hxnew⟩ := hxmem
    have hxnotacc : x ∉ acc := by
      simp at hxnew
      exact hxnew
    have hlen2 : (acc ++ [x]).length + steps ≤ 69 := by
      rw [List.length_append, List.length_cons, List.length_nil]
      omega
    have hstep : fill_random g i (steps + 1) acc =
        fill_random g (i + 1) steps (acc ++ [x]) := by
      rw [fill_random]
    obtain ⟨r1, r2, r3⟩ := ih (i + 1) (acc ++ [x]) hlen2
    rw [hstep]
    refine ⟨?_, ?_, ?_⟩
    · rw [r1, List.length_append, List.length_cons, List.length_nil]
      omega
    · intro hn
      apply r2
      rw [List.nodup_append]
      refine ⟨hn, List.nodup_singleton _, ?_⟩
      intro y hy hy2
      rw [List.mem_singleton] at hy2
      rw [hy2] at hy
      exact hxnotacc hy
    · intro y hy
      rcases r3 y hy with hy2 | hy2
      · rcases List.mem_append.mp hy2 with hy3 | hy3
        · exact Or.inl hy3
        · rw [List.mem_singleton] at hy3
          rw [hy3]
          exact Or.inr hxdom
      · exact Or.inr hy2

/-- Invariant of the uniqueness repair `ensure_unique`: on success the
result has exactly 5 pairwise-distinct entries, each from the input picks
or from the white-ball domain. -/
theorem ensure_unique_ok (g : ℕ → ℕ) (i : ℕ) (wb whites : List ℕ) (i2 : ℕ)
    (hlen : wb.length = 5)
    (h : ensure_unique g i wb = Except.ok (whites, i2)) :
    whites.length = 5 ∧ whites.Nodup ∧
      ∀ x ∈ whites, x ∈ wb ∨ x ∈ white_domain := by
  simp only [ensure_unique] at h
  split at h
  · rename_i hd
    split at h
    · exact absurd h (by simp)
    · rename_i fill i3 hsamp
      simp only [Except.ok.injEq, Prod.mk.injEq] at h
      obtain ⟨rfl, rfl⟩ := h
      obtain ⟨s1, s2, s3⟩ := random_sample_ok g i _ _ fill i3 hsamp
      have hnd : (white_domain.filter fun n => !(wb.dedup.contains n)).Nodup :=
        white_domain_nodup.filter _
      have hfillmem : ∀ x ∈ fill, x ∈ white_domain ∧ x ∉ wb := by
        intro x hx
        have h2 := s2 x hx
        rw [List.mem_filter] at h2
        have h3 := h2.2
        simp at h3
        exact ⟨h2.1, h3⟩
      refine ⟨?_, ?_, ?_⟩
      · rw [List.length_append, s1]
        omega
      · rw [List.nodup_append]
        refine ⟨wb.nodup_dedup, s3 hnd, ?_⟩
        intro x hx hx2
        exact (hfillmem x hx2).2 (List.mem_dedup.mp hx)
      · intro x hx
        rcases List.mem_append.mp hx with hx2 | hx2
        · exact Or.inl (List.mem_dedup.mp hx2)
        · exact Or.inr (hfillmem x hx2).1
  · rename_i hd
    simp only [Except.ok.injEq, Prod.mk.injEq] at h
    obtain ⟨rfl, rfl⟩ := h
    have hdedup : wb.dedup.length = wb.length := by
      have h2 := (wb.dedup_sublist).length_le
      omega
    have hnd : wb.Nodup := by
      have h3 := (wb.dedup_sublist).eq_of_length hdedup
      rw [← h3]
      exact wb.nodup_dedup
    exact ⟨hlen, hnd, fun x hx => Or.inl hx⟩

/-- Two mutually exclusive predicates together hold at most once per list
position. -/
theorem countP_disjoint_le_length (p q : ℕ → Bool) (l : List ℕ)
    (h : ∀ a, p a = true → q a = true → False) :
    l.countP p + l.countP q ≤ l.length := by
  induction l with
  | nil => simp
  | cons a t ih =>
    rw [List.countP_cons, List.countP_cons, List.length_cons]
    by_cases hp : p a = true
    · have hq : ¬ q a = true := fun hq => h a hp hq
      rw [if_pos hp, if_neg hq]
      omega
    · rw [if_neg hp]
      by_cases hq : q a = true
      · rw [if_pos hq]; omega
      · rw [if_neg hq]; omega

/-- The white-ball domain list is exactly the interval [1, 69]. -/
theorem mem_white_domain_iff (x : ℕ) : x ∈ white_domain ↔ 1 ≤ x ∧ x ≤ 69 := by
  rw [white_domain, List.mem_range'_1]
  omega

/-- The powerball domain list is exactly the interval [1, 26]. -/
theorem mem_pb_domain_iff (x : ℕ) : x ∈ pb_domain ↔ 1 ≤ x ∧ x ≤ 26 := by
  rw [pb_domain, List.mem_range'_1]
  omega

/-- Sorting five distinct in-domain white balls yields five distinct
ascending values in [1, 69]. -/
theorem insertionSort_valid (l : List ℕ) (hlen : l.length = 5)
    (hnd : l.Nodup) (hdom : ∀ x ∈ l, x ∈ white_domain) :
    (l.insertionSort (· ≤ ·)).length = 5 ∧
    (l.insertionSort (· ≤ ·)).Nodup ∧
    (l.insertionSort (· ≤ ·)).Sorted (· ≤ ·) ∧
    ∀ x ∈ l.insertionSort (· ≤ ·), 1 ≤ x ∧ x ≤ 69 := by
  have hperm := List.perm_insertionSort (· ≤ ·) l
  refine ⟨by rw [hperm.length_eq, hlen], hperm.nodup_iff.mpr hnd,
    List.sorted_insertionSort _ l, ?_⟩
  intro x hx
  exact (mem_white_domain_iff x).mp (hdom x (hperm.mem_iff.mp hx))

/-- The well-formedness invariant of a GeneratedSet: 5 distinct ascending
white balls in [1,69] and one powerball in [1,26]. -/
def valid_generated_set (white_balls : List ℕ) (powerball : ℕ) : Prop :=
  white_balls.length = 5 ∧ white_balls.Nodup ∧
  white_balls.Sorted (· ≤ ·) ∧ (∀ x ∈ white_balls, 1 ≤ x ∧ x ≤ 69) ∧
  1 ≤ powerball ∧ powerball ≤ 26

/-- Each per-position pick of the position strategy lies in the white-ball
domain. -/
theorem position_pick_mem (hot : List ℕ) (g : ℕ → ℕ) (pos : ℕ)
    (hpos : pos < 5) : position_pick hot g pos ∈ white_domain := by
  have hsub : ∀ x ∈ position_preferences pos, x ∈ white_domain := by
    interval_cases pos <;> decide
  have hne : position_preferences pos ≠ [] := by
    interval_cases pos <;> decide
  simp only [position_pick]
  split_ifs with hcond
  · have hmem := random_choice_mem _ (g (2 * pos + 1)) hcond.1
    exact hsub _ (List.mem_filter.mp hmem).1
  · exact hsub _ (random_choice_mem _ (g (2 * pos + 1)) hne)

/-! ## Claim theorems: sampling -/

/-- C7: in the frequency-weighted strategy, every white ball n in [1,69]
occurs in the selection pool with repetition weight max(1, count(n) / 10)
and every powerball m in [1,26] occurs in the powerball pool with
repetition weight max(1, count(m) / 5) (integer division, as Python's `//`
computes). -/
theorem C7_frequency_pool_weights (white_freq pb_freq : ℕ → ℕ) (n m : ℕ)
    (hn : 1 ≤ n ∧ n ≤ 69) (hm : 1 ≤ m ∧ m ≤ 26) :
    (weighted_pool white_freq white_domain 10).count n =
      max 1 (white_freq n / 10) ∧
    (weighted_pool pb_freq pb_domain 5).count m = max 1 (pb_freq m / 5) :=
  ⟨count_weighted_pool white_freq 10 white_domain white_domain_nodup n
      ((mem_white_domain_iff n).mpr hn),
   count_weighted_pool pb_freq 5 pb_domain (by decide) m
      ((mem_pb_domain_iff m).mpr hm)⟩

/-- Witness for C7 at count 57 (weight 5) and count 12 (weight 2). -/
theorem C7_witness :
    (weighted_pool (fun _ => 57) white_domain 10).count 7 = 5 ∧
    (weighted_pool (fun _ => 12) pb_domain 5).count 3 = 2 := by
  have h := C7_frequency_pool_weights (fun _ => 57) (fun _ => 12) 7 3
    ⟨by norm_num, by norm_num⟩ ⟨by norm_num, by norm_num⟩
  exact ⟨by rw [h.1]; decide, by rw [h.2]; decide⟩

/-- C1: whenever the frequency-weighted strategy returns (the acceptance
loop can be starved by an adversarial oracle, hence the `some` hypothesis)
and whenever the position strategy returns without an exception, the
returned set consists of exactly 5 pairwise-distinct ascending white balls
in [1,69] with one powerball in [1,26] — for every bias specification
(frequency tables, hot list) and every random oracle. -/
theorem C1_sampler_valid_sets (white_freq pb_freq g1 : ℕ → ℕ) (fuel : ℕ)
    (hot : List ℕ) (g2 : ℕ → ℕ) (w1 : List ℕ) (p1 : ℕ) (w2 : List ℕ)
    (p2 : ℕ)
    (h1 : generate_frequency_weighted_strategy white_freq pb_freq g1 fuel =
      some (w1, p1))
    (h2 : generate_position_strategy hot g2 = Except.ok (w2, p2)) :
    valid_generated_set w1 p1 ∧ valid_generated_set w2 p2 := by
  constructor
  · simp only [generate_frequency_weighted_strategy] at h1
    split at h1
    · exact absurd h1 (by simp)
    · rename_i whites i heq
      simp only [Option.some.injEq, Prod.mk.injEq] at h1
      obtain ⟨rfl, rfl⟩ := h1
      have hpoolne : weighted_pool white_freq white_domain 10 ≠ [] :=
        weighted_pool_ne_nil _ _ _ (by decide)
      obtain ⟨q1, q2, q3⟩ := pick_unique_ok g1 _ hpoolne fuel 0 [] whites i
        (by simp) heq
      have hdom : ∀ x ∈ whites, x ∈ white_domain := by
        intro x hx
        rcases q3 x hx with hx2 | hx2
        · exact absurd hx2 (List.not_mem_nil x)
        · exact (mem_weighted_pool _ _ _ x).mp hx2
      obtain ⟨v1, v2, v3, v4⟩ :=
        insertionSort_valid whites q1 (q2 List.nodup_nil) hdom
      have hpb : random_choice (weighted_pool pb_freq pb_domain 5) (g1 i) ∈
          pb_domain :=
        (mem_weighted_pool _ _ _ _).mp
          (random_choice_mem _ _ (weighted_pool_ne_nil _ _ _ (by decide)))
      rw [mem_pb_domain_iff] at hpb
      exact ⟨v1, v2, v3, v4, hpb.1, hpb.2⟩
  · simp only [generate_position_strategy] at h2
    split at h2
    · exact absurd h2 (by simp)
    · rename_i whites i heq
      simp only [Except.ok.injEq, Prod.mk.injEq] at h2
      obtain ⟨rfl, rfl⟩ := h2
      have hlen : ((List.range 5).map (position_pick hot g2)).length = 5 := by
        rw [List.length_map, List.length_range]
      obtain ⟨q1, q2, q3⟩ := ensure_unique_ok g2 10 _ whites i hlen heq
      have hdom : ∀ x ∈ whites, x ∈ white_domain := by
        intro x hx
        rcases q3 x hx with hx2 | hx2
        · rw [List.mem_map] at hx2
          obtain ⟨pos, hpos, rfl⟩ := hx2
          exact position_pick_mem hot g2 pos (List.mem_range.mp hpos)
        · exact hx2
      obtain ⟨v1, v2, v3, v4⟩ := insertionSort_valid whites q1 q2 hdom
      obtain ⟨hp1, hp2⟩ := random_randint_1_26 g2 i
      exact ⟨v1, v2, v3, v4, hp1, hp2⟩

/-- Witness for C1: with all-zero frequency tables, the identity oracle and
fuel 5, the frequency-weighted strategy returns ([1,2,3,4,5], 6); with an
empty hot list and the identity oracle the position strategy returns
([2,16,37,45,68], 11). -/
theorem C1_witness :
    valid_generated_set [1, 2, 3, 4, 5] 6 ∧
    valid_generated_set [2, 16, 37, 45, 68] 11 :=
  C1_sampler_valid_sets (fun _ => 0) (fun _ => 0) (fun i => i) 5 []
    (fun i => i) [1, 2, 3, 4, 5] 6 [2, 16, 37, 45, 68] 11
    (by rfl) (by rfl)

/-- C4 counterexample: the smart generator's `generate_hot_strategy` does
not fall back when the hot pool cannot supply enough distinct white balls.
With a hot pool of 2 distinct values and an oracle demanding 3 hot numbers,
`random.sample` raises `ValueError` and no set is returned. -/
theorem C4_hot_pool_exhaustion_raises :
    generate_hot_strategy [1, 2] (fun _ => 0) =
      Except.error PyExc.value_error := by
  rfl

/-- C4 amended: the final generator's `generate_ultimate_hot_strategy`
completes a short hot pool (for example one with only 2 distinct values)
from the most-frequent pool and then uniformly from the unused domain,
never duplicating an already-selected value, and returns 5 distinct
ascending white balls in [1,69] for every oracle; the smart generator's
`generate_hot_strategy` instead raises `ValueError` in that situation. -/
theorem C4_ultimate_hot_fallback (hot most_frequent most_common_pbs : List ℕ)
    (g : ℕ → ℕ) (hhotnd : hot.Nodup) (hhot : ∀ x ∈ hot, x ∈ white_domain)
    (hmfnd : most_frequent.Nodup)
    (hmf : ∀ x ∈ most_frequent, x ∈ white_domain) :
    ∃ w pb,
      generate_ultimate_hot_strategy hot most_frequent most_common_pbs g =
        Except.ok (w, pb) ∧
      w.length = 5 ∧ w.Nodup ∧ w.Sorted (· ≤ ·) ∧
      ∀ x ∈ w, 1 ≤ x ∧ x ≤ 69 := by
  have hfinal : ∀ (w2 : List ℕ) (i2 : ℕ), w2.length ≤ 5 → w2.Nodup →
      (∀ x ∈ w2, x ∈ white_domain) →
      ∃ w pb,
        (Except.ok
          ((fill_random g i2 (5 - w2.length) w2).1.insertionSort (· ≤ ·),
            random_choice most_common_pbs
              (g (fill_random g i2 (5 - w2.length) w2).2))
          : Except PyExc (List ℕ × ℕ)) = Except.ok (w, pb) ∧
        w.length = 5 ∧ w.Nodup ∧ w.Sorted (· ≤ ·) ∧
        ∀ x ∈ w, 1 ≤ x ∧ x ≤ 69 := by
    intro w2 i2 hle hnd hdom
    obtain ⟨f1, f2, f3⟩ := fill_random_ok g (5 - w2.length) i2 w2 (by omega)
    have hdom3 : ∀ x ∈ (fill_random g i2 (5 - w2.length) w2).1,
        x ∈ white_domain := by
      intro x hx
      rcases f3 x hx with hx2 | hx2
      · exact hdom x hx2
      · exact hx2
    obtain ⟨v1, v2, v3, v4⟩ := insertionSort_valid _ (by omega) (f2 hnd) hdom3
    exact ⟨_, _, rfl, v1, v2, v3, v4⟩
  have hstep2 : ∀ (w1 : List ℕ) (i1 : ℕ), w1.length ≤ 4 → w1.Nodup →
      (∀ x ∈ w1, x ∈ white_domain) →
      ∃ w pb,
        (match
          (if 0 < 5 - w1.length then
            if h2 : (most_frequent.filter fun n => !(w1.contains n)) ≠ [] then
              match random_sample g i1
                  (most_frequent.filter fun n => !(w1.contains n))
                  (min (5 - w1.length)
                    (most_frequent.filter fun n => !(w1.contains n)).length)
                with
              | Except.error e => Except.error e
              | Except.ok (sel, i2) => Except.ok (w1 ++ sel, i2)
            else Except.ok (w1, i1)
          else Except.ok (w1, i1)) with
        | Except.error e => Except.error e
        | Except.ok (w2, i2) =>
          Except.ok
            ((fill_random g i2 (5 - w2.length) w2).1.insertionSort (· ≤ ·),
              random_choice most_common_pbs
                (g (fill_random g i2 (5 - w2.length) w2).2))) =
          Except.ok (w, pb) ∧
        w.length = 5 ∧ w.Nodup ∧ w.Sorted (· ≤ ·) ∧
        ∀ x ∈ w, 1 ≤ x ∧ x ≤ 69 := by
    intro w1 i1 hw1len hw1nd hw1dom
    have hrem : 0 < 5 - w1.length := by omega
    rw [if_pos hrem]
    by_cases hAF : (most_frequent.filter fun n => !(w1.contains n)) ≠ []
    · rw [dif_pos hAF]
      have hk2 : min (5 - w1.length)
          (most_frequent.filter fun n => !(w1.contains n)).length ≤
          (most_frequent.filter fun n => !(w1.contains n)).length :=
        Nat.min_le_right _ _
      rw [random_sample, if_pos hk2]
      rcases hsg2 : sample_go g i1
          (most_frequent.filter fun n => !(w1.contains n))
          (min (5 - w1.length)
            (most_frequent.filter fun n => !(w1.contains n)).length)
        with ⟨sel, i2⟩
      have hsellen : sel.length = min (5 - w1.length)
          (most_frequent.filter fun n => !(w1.contains n)).length := by
        have h3 := sample_go_length g _ i1 _ hk2
        rw [hsg2] at h3
        exact h3
      have hselsub : ∀ x ∈ sel,
          x ∈ most_frequent.filter fun n => !(w1.contains n) := by
        intro x hx
        have h3 := sample_go_subset g _ i1 _ hk2
        rw [hsg2] at h3
        exact h3 x hx
      have hselnd : sel.Nodup := by
        have h3 := sample_go_nodup g _ i1 _ hk2 (hmfnd.filter _)
        rw [hsg2] at h3
        exact h3
      have hself : ∀ x ∈ sel, x ∈ white_domain ∧ x ∉ w1 := by
        intro x hx
        have h3 := List.mem_filter.mp (hselsub x hx)
        have h4 := h3.2
        simp at h4
        exact ⟨hmf x h3.1, h4⟩
      refine hfinal (w1 ++ sel) i2 ?_ ?_ ?_
      · rw [List.length_append, hsellen]
        omega
      · rw [List.nodup_append]
        exact ⟨hw1nd, hselnd, fun x hx hx2 => (hself x hx2).2 hx⟩
      · intro x hx
        rcases List.mem_append.mp hx with hx2 | hx2
        · exact hw1dom x hx2
        · exact (hself x hx2).1
    · rw [dif_neg hAF]
      exact hfinal w1 i1 (by omega) hw1nd hw1dom
  simp only [generate_ultimate_hot_strategy]
  by_cases hc1 : 0 < min 4 hot.length
  · rw [if_pos hc1]
    have hk1 : min 4 hot.length ≤ hot.length := Nat.min_le_right _ _
    rw [random_sample, if_pos hk1]
    rcases hsg1 : sample_go g 0 hot (min 4 hot.length) with ⟨w1, i1⟩
    have hw1len : w1.length = min 4 hot.length := by
      have h3 := sample_go_length g _ 0 _ hk1
      rw [hsg1] at h3
      exact h3
    have hw1nd : w1.Nodup := by
      have h3 := sample_go_nodup g _ 0 _ hk1 hhotnd
      rw [hsg1] at h3
      exact h3
    have hw1dom : ∀ x ∈ w1, x ∈ white_domain := by
      intro x hx
      have h3 := sample_go_subset g _ 0 _ hk1
      rw [hsg1] at h3
      exact hhot x (h3 x hx)
    exact hstep2 w1 i1 (by omega) hw1nd hw1dom
  · rw [if_neg hc1]
    exact hstep2 [] 0 (by simp) List.nodup_nil (by simp)

/-- Witness for C4 at the hot pool [1, 2] of the claim (only 2 distinct
values when 5 are requested), a 3-element most-frequent pool, and the
all-zero oracle. -/
theorem C4_witness :
    ∃ w pb,
      generate_ultimate_hot_strategy [1, 2] [10, 20, 30] [5] (fun _ => 0) =
        Except.ok (w, pb) ∧
      w.length = 5 ∧ w.Nodup ∧ w.Sorted (· ≤ ·) ∧
      ∀ x ∈ w, 1 ≤ x ∧ x ≤ 69 :=
  C4_ultimate_hot_fallback [1, 2] [10, 20, 30] [5] (fun _ => 0)
    (by decide) (by decide) (by decide) (by decide)

/-- C10: the hot and cold white-ball sets produced by pattern analysis are
disjoint subsets of [1,69], and for any 5 white balls the composition
report satisfies hot + cold + neutral = 5 with neutral non-negative. -/
theorem C10_hot_cold_disjoint_composition (count : ℕ → ℕ) (expected s : ℚ)
    (white_balls : List ℕ) (h5 : white_balls.length = 5)
    (hnd : white_balls.Nodup) :
    (∀ n, n ∈ hot_numbers count expected s →
      n ∉ cold_numbers count expected s) ∧
    (∀ n ∈ hot_numbers count expected s, 1 ≤ n ∧ n ≤ 69) ∧
    (∀ n ∈ cold_numbers count expected s, 1 ≤ n ∧ n ≤ 69) ∧
    (display_composition white_balls (hot_numbers count expected s)
        (cold_numbers count expected s)).1 +
      (display_composition white_balls (hot_numbers count expected s)
        (cold_numbers count expected s)).2.1 +
      (display_composition white_balls (hot_numbers count expected s)
        (cold_numbers count expected s)).2.2 = 5 ∧
    0 ≤ (display_composition white_balls (hot_numbers count expected s)
        (cold_numbers count expected s)).2.2 := by
  have hdisj : ∀ n, n ∈ hot_numbers count expected s →
      n ∉ cold_numbers count expected s := by
    intro n hn hc
    rw [hot_numbers, List.mem_filter] at hn
    rw [cold_numbers, List.mem_filter] at hc
    have hn2 := of_decide_eq_true hn.2
    have hc2 := of_decide_eq_true hc.2
    linarith
  refine ⟨hdisj, ?_, ?_, ?_, ?_⟩
  · intro n hn
    exact (mem_white_domain_iff n).mp (List.mem_filter.mp hn).1
  · intro n hn
    exact (mem_white_domain_iff n).mp (List.mem_filter.mp hn).1
  · simp only [display_composition]
    ring
  · simp only [display_composition]
    have hle := countP_disjoint_le_length
      (fun n => (hot_numbers count expected s).contains n)
      (fun n => (cold_numbers count expected s).contains n)
      white_balls ?_
    · rw [h5] at hle
      push_cast
      omega
    · intro a ha hb
      simp only at ha hb
      have ha2 : a ∈ hot_numbers count expected s := by simp at ha; exact ha
      have hb2 : a ∈ cold_numbers count expected s := by simp at hb; exact hb
      exact hdisj a ha2 hb2

/-- Witness for C10 at the all-zero frequency table, expected 0, square
root 1, and the draw [1,2,3,4,5]. -/
theorem C10_witness :
    (display_composition [1, 2, 3, 4, 5] (hot_numbers (fun _ => 0) 0 1)
        (cold_numbers (fun _ => 0) 0 1)).1 +
      (display_composition [1, 2, 3, 4, 5] (hot_numbers (fun _ => 0) 0 1)
        (cold_numbers (fun _ => 0) 0 1)).2.1 +
      (display_composition [1, 2, 3, 4, 5] (hot_numbers (fun _ => 0) 0 1)
        (cold_numbers (fun _ => 0) 0 1)).2.2 = 5 ∧
    0 ≤ (display_composition [1, 2, 3, 4, 5] (hot_numbers (fun _ => 0) 0 1)
        (cold_numbers (fun _ => 0) 0 1)).2.2 :=
  ⟨(C10_hot_cold_disjoint_composition (fun _ => 0) 0 1 [1, 2, 3, 4, 5]
      (by decide) (by decide)).2.2.2.1,
   (C10_hot_cold_disjoint_composition (fun _ => 0) 0 1 [1, 2, 3, 4, 5]
      (by decide) (by decide)).2.2.2.2⟩

end Lottery
